import Mathlib

/-!
Verification of the taxonomy-resolver core (src/taxonresolver) against its
natural-language specification.

The repository stores a taxonomy as plain Python dictionaries:

  tree = {"nodes": {tax_id -> {"tax_id", "parent_tax_id", "rank"}},
          "children": {parent_tax_id -> [child tax_id, ...]}}

(the "fast" variant, src/taxonresolver/tree_fast.py), or as a dictionary of
anytree nodes linked through parent pointers (the "anytree" variant,
src/taxonresolver/tree.py).  Python dicts are embedded as association lists
with insert-overwrite semantics (an overwrite keeps the original key
position, as CPython dicts do); recursive tree walks are embedded as
fuel-indexed functions returning Option, where none models a computation
that does not terminate for the given fuel (the Python code would hit the
recursion limit there).  All searched/returned collections are compared at
the level of membership, since every query result is passed through
list(set(...)) by the source.
-/

namespace TaxRes

/-- Association-list lookup, mirroring Python dict access d[k] / `k in d`. -/
def alookup (m : List (String × α)) (k : String) : Option α :=
  match m with
  | [] => none
  | (k', v) :: r => if k' = k then some v else alookup r k

/-- Python dict assignment d[k] = v: overwrite in place if the key exists
(keeping its original position, as CPython does), otherwise append. -/
def dinsert (m : List (String × α)) (k : String) (v : α) : List (String × α) :=
  match m with
  | [] => [(k, v)]
  | (k', v') :: r => if k' = k then (k, v) :: r else (k', v') :: dinsert r k v

/-- The keys of an association list (a Python dict's key view). -/
def keysOf (m : List (String × α)) : List String :=
  m.map Prod.fst

/-- Monadic map over Option written out explicitly (a loop whose body may
fail fails the whole loop, as an uncaught Python exception would). -/
def omap (f : α → Option β) : List α → Option (List β)
  | [] => some []
  | a :: l =>
    match f a, omap f l with
    | some b, some bs => some (b :: bs)
    | _, _ => none

/-- Sequence a list of optional lists, concatenating the results. -/
def optJoin : List (Option (List α)) → Option (List α)
  | [] => some []
  | none :: _ => none
  | some l :: rest =>
    match optJoin rest with
    | some r => some (l ++ r)
    | none => none

/-- A node record of the fast variant: dict_node with keys tax_id,
parent_tax_id and rank (tree_fast.py, build_tree). -/
structure FNode where
  tax_id : String
  parent_tax_id : String
  rank : String
deriving DecidableEq

/-- The fast tree dictionary: {"nodes": {...}, "children": {...}}
(tree_fast.py). -/
structure FastTree where
  nodes : List (String × FNode)
  children : List (String × List String)
deriving DecidableEq

/-- Children lookup in the fast tree: tree["children"].get(id); none models a
KeyError / failed membership test on the children dict. -/
def chFast (t : FastTree) (id : String) : Option (List String) :=
  alookup t.children id

/-- The recursive body of get_leaves (tree_fast.py, search_taxids): the ids
at hand are all collected, then the walk recurses into the children list of
every id that has one (a KeyError on the children dict is swallowed: the id
is a leaf).  The fuel bounds the recursion depth; none models a walk that
exceeds it (Python would die on RecursionError, e.g. on a cyclic children
table).  Order of collection differs from the Python interleaving, but the
collected set of ids is the same, and every use below is via list(set(.)). -/
def expandAll (ch : String → Option (List String)) : Nat → List String → Option (List String)
  | 0, _ => none
  | fuel + 1, ids =>
    match optJoin (ids.map (fun i =>
        match ch i with
        | none => some []
        | some cs => expandAll ch fuel cs)) with
    | none => none
    | some rs => some (ids ++ rs)

/-- One child step in a children table: b is listed among the children of a. -/
def ChStep (ch : String → Option (List String)) (a b : String) : Prop :=
  ∃ cs, ch a = some cs ∧ b ∈ cs

/-- Zero or more child steps. -/
def Reaches (ch : String → Option (List String)) : String → String → Prop :=
  Relation.ReflTransGen (ChStep ch)

/-- utils.label_to_id: interning of a rank label,
text.replace(" ", "_").replace("-", "_").  Both patterns are single
characters, so the two substring replacements amount to this character
map. -/
def label_to_id (text : String) : String :=
  String.mk (text.data.map (fun c => if c = ' ' then '_' else if c = '-' then '_' else c))

/-- One parsed line of nodes.dmp after utils.split_line: fields 0, 1 and 2
(tax_id, parent_tax_id, rank).  The zipfile/TextIOWrapper plumbing that
produces these triples is I/O glue outside the verified core. -/
structure DumpRow where
  tax_id : String
  parent_tax_id : String
  rank : String
deriving DecidableEq

/-- The record of the last row of the dump declaring a given tax_id, if
any.  Used to state what a build with duplicate ids actually keeps. -/
def lastWins : List DumpRow → String → Option DumpRow
  | [], _ => none
  | r :: rest, id =>
    match lastWins rest id with
    | some x => some x
    | none => if r.tax_id = id then some r else none

/-- An in-memory JSON value, the contract of the snapshot collaborator
(json.dump/json.load): string scalars, arrays and order-preserving
string-keyed objects are all the fast tree dictionary uses. -/
inductive Json where
  | str : String → Json
  | arr : List Json → Json
  | obj : List (String × Json) → Json

namespace TreeFast

/-- The nodes dict built by the read loop of build_tree (tree_fast.py):
tree_dict["nodes"][fields[0]] = dict_node, a plain dict assignment, so a
repeated tax_id silently overwrites the earlier record. -/
def buildNodes (rows : List DumpRow) : List (String × FNode) :=
  rows.foldl (fun m r => dinsert m r.tax_id ⟨r.tax_id, r.parent_tax_id, label_to_id r.rank⟩) []

/-- Inner step of tree_reparenting (tree_fast.py): append the node to its
parent entry of the children dict, creating the entry if absent. -/
def addChild (cm : List (String × List String)) (p c : String) : List (String × List String) :=
  match alookup cm p with
  | none => dinsert cm p [c]
  | some l => dinsert cm p (l ++ [c])

/-- tree_reparenting (tree_fast.py): loop over all node records and file
each under its parent in the children dict.  Note the root (parent == self)
is not special-cased here, so the root ends up in its own children list. -/
def tree_reparenting (nodes : List (String × FNode)) : FastTree :=
  ⟨nodes, nodes.foldl (fun cm kv => addChild cm kv.2.parent_tax_id kv.2.tax_id) []⟩

/-- build_tree (tree_fast.py): read the rows into the nodes dict, then
reparent. -/
def build_tree (rows : List DumpRow) : FastTree :=
  tree_reparenting (buildNodes rows)

/-- validate_by_taxid (tree_fast.py): tax_id in tree["nodes"]. -/
def validate_by_taxid (t : FastTree) (tax_id : String) : Bool :=
  (alookup t.nodes tax_id).isSome

/-- validate_taxids (tree_fast.py): each id is marked valid when it is in
the filter list or in the nodes dict; the result is False exactly when some
mark is False. -/
def validate_taxids (t : FastTree) (validateids filterids : List String) : Bool :=
  let taxids_valid := validateids.map (fun id => decide (id ∈ filterids) || validate_by_taxid t id)
  if false ∈ taxids_valid then false else true

/-- search_taxids (tree_fast.py): for every searched id that has a children
entry, run get_leaves on that children list (collecting all ids reached);
ids without a children entry contribute nothing (not even themselves).
Then, when a filter list was given, keep only ids in it; finally
list(set(...)), modelled by dedup. -/
def search_taxids (t : FastTree) (fuel : Nat) (searchids filterids : List String) :
    Option (List String) :=
  match omap (fun s =>
      match chFast t s with
      | some cs => expandAll (chFast t) fuel cs
      | none => some []) searchids with
  | none => none
  | some parts =>
    let found := parts.flatten
    let found2 := if filterids.isEmpty then found else found.filter (fun x => decide (x ∈ filterids))
    some found2.dedup

/-- filter_tree (tree_fast.py): keep exactly the valid filter ids as the new
nodes dict (invalid ids are skipped), then reparent.  The none branch of the
inner match is unreachable because the ids were just validated. -/
def filter_tree (t : FastTree) (filterids : List String) : FastTree :=
  let tax_ids := filterids.filter (fun id => validate_by_taxid t id)
  tree_reparenting (tax_ids.foldl (fun m k =>
    match alookup t.nodes k with
    | some nd => dinsert m k nd
    | none => m) [])

/-- The message printed by TaxonResolverFast.search when validation fails
(tree_fast.py, lines 303-304); it is a fixed string, naming no tax id. -/
def searchFailMessage : String :=
  "Some of the provided TaxIDs are not valid or not found in the built Tree."

/-- TaxonResolverFast.search (tree_fast.py): validate the searched ids
first; on success run search_taxids, otherwise surface the fixed warning
message (via logging.warning or print_and_exit) and return no result.  The
outer none still models only fuel exhaustion of the recursive walk. -/
def resolver_search (t : FastTree) (fuel : Nat) (taxidsearch taxidfilter : List String) :
    Option (Except String (List String)) :=
  if validate_taxids t taxidsearch taxidfilter then
    match search_taxids t fuel taxidsearch taxidfilter with
    | some l => some (.ok l)
    | none => none
  else some (.error searchFailMessage)

/-- write_tree (tree_fast.py, outputformat json): json.dump of the tree
dictionary.  The snapshot collaborator is modelled at the level of the JSON
value it serializes; byte-level encoding is the json library's contract. -/
def write_tree (t : FastTree) : Json :=
  .obj [("nodes", .obj (t.nodes.map (fun kv =>
           (kv.1, Json.obj [("tax_id", .str kv.2.tax_id),
                            ("parent_tax_id", .str kv.2.parent_tax_id),
                            ("rank", .str kv.2.rank)])))),
        ("children", .obj (t.children.map (fun kv => (kv.1, Json.arr (kv.2.map .str)))))]

/-- Decode a JSON scalar back to a string. -/
def decodeStr : Json → Option String
  | .str s => some s
  | _ => none

/-- Decode one node record of the snapshot. -/
def decodeNode (j : Json) : Option FNode :=
  match j with
  | .obj [(k1, .str a), (k2, .str b), (k3, .str c)] =>
    if k1 = "tax_id" ∧ k2 = "parent_tax_id" ∧ k3 = "rank" then some ⟨a, b, c⟩ else none
  | _ => none

/-- Decode one entry of the nodes object. -/
def decodeNodeEntry (kv : String × Json) : Option (String × FNode) :=
  (decodeNode kv.2).map (fun nd => (kv.1, nd))

/-- Decode one entry of the children object. -/
def decodeChildEntry (kv : String × Json) : Option (String × List String) :=
  match kv.2 with
  | .arr l => (omap decodeStr l).map (fun ss => (kv.1, ss))
  | _ => none

/-- load_tree (tree_fast.py, inputformat json): json.load of a snapshot
produced by write_tree; none models a malformed snapshot. -/
def load_tree (j : Json) : Option FastTree :=
  match j with
  | .obj [(k1, .obj ns), (k2, .obj cs)] =>
    if k1 = "nodes" ∧ k2 = "children" then
      match omap decodeNodeEntry ns, omap decodeChildEntry cs with
      | some nodes, some children => some ⟨nodes, children⟩
      | _, _ => none
    else none
  | _ => none

end TreeFast

/-- Spec-side definition (spec section 4.2): subtree_of(id) is the set
containing id itself plus all of its transitive descendants, read off the
children table. -/
def spec_subtree_of (ch : String → Option (List String)) (fuel : Nat) (id : String) :
    Option (List String) :=
  expandAll ch fuel [id]

/-- Modelled from the spec: the include/exclude/filter search pipeline of
spec section 4.3.  A search taking an exclude set is absent from src/ (the
search functions there have no exclude parameter; only the test suite of a
newer package references taxidexclude), so the pipeline is modelled from
the spec's words, applied strictly in order: (1) resolve include to the
union of each ID plus its full subtree; (2) if exclude is given, resolve it
the same way and set-subtract; (3) if filter is given, intersect with it as
a flat literal ID set; (4) return the result as a set.  The ID sets are
taken as already validated, as the claim quantifies over valid sets. -/
def spec_search (ch : String → Option (List String)) (fuel : Nat)
    (includeids : List String) (excludeids : Option (List String))
    (filterids : Option (List String)) : Option (List String) :=
  match omap (spec_subtree_of ch fuel) includeids with
  | none => none
  | some incParts =>
    let step1 := incParts.flatten
    let step2opt : Option (List String) :=
      match excludeids with
      | none => some step1
      | some exc =>
        match omap (spec_subtree_of ch fuel) exc with
        | none => none
        | some excParts => some (step1.filter (fun x => !(decide (x ∈ excParts.flatten))))
    match step2opt with
    | none => none
    | some step2 =>
      let step3 :=
        match filterids with
        | none => step2
        | some fs => step2.filter (fun x => decide (x ∈ fs))
      some step3.dedup

namespace Tree

/-- The payload of an anytree node as created by get_node_from_dict
(tree.py): rank, taxonName and parentTaxId attributes; the node name is the
tax_id, used as the dictionary key. -/
structure TaxonNode where
  rank : String
  taxonName : String
  parentTaxId : String
deriving DecidableEq

/-- The anytree variant after tree_reparenting (tree.py): a dictionary of
nodes whose parent pointers are derived from parentTaxId, with the tree
object itself being tree_dict[root_key]. -/
structure ATree where
  nodes : List (String × TaxonNode)
  rootKey : String
deriving DecidableEq

/-- The parent pointer set by tree_reparenting (tree.py): a node is linked
to its parentTaxId when that id is present in the dictionary and differs
from the node's own id (the root sentinel is left unparented). -/
def parentLink (t : ATree) (x : String) : Option String :=
  match alookup t.nodes x with
  | none => none
  | some nd =>
    if (alookup t.nodes nd.parentTaxId).isSome ∧ nd.parentTaxId ≠ x then
      some nd.parentTaxId
    else none

/-- The anytree children of a node: exactly the nodes whose parent pointer
is that node (in dictionary order). -/
def childrenA (t : ATree) (p : String) : List String :=
  (keysOf t.nodes).filter (fun x => decide (parentLink t x = some p))

/-- The children table of the anytree variant, as a total function (a node
with no children has the empty list, never a KeyError). -/
def chA (t : ATree) (p : String) : Option (List String) :=
  some (childrenA t p)

/-- The rank attribute of a node (every node created by build_tree carries
one; the empty string covers a key without a record and never matches a
real rank). -/
def rankOf (t : ATree) (x : String) : String :=
  match alookup t.nodes x with
  | some nd => nd.rank
  | none => ""

/-- One step up a parent pointer. -/
def UpStep (t : ATree) (a b : String) : Prop :=
  parentLink t a = some b

/-- Zero or more steps up parent pointers: b lies on the ancestor path of a
(a itself included). -/
def UpReach (t : ATree) : String → String → Prop :=
  Relation.ReflTransGen (UpStep t)

/-- node.path of anytree, computed bottom-up: the node followed by its
chain of ancestors up to the first unparented node.  anytree lists the same
nodes root-first; only the set matters below.  The fuel bounds the chain
length. -/
def climb (t : ATree) : Nat → String → Option (List String)
  | 0, _ => none
  | fuel + 1, x =>
    match parentLink t x with
    | none => some [x]
    | some p => (climb t fuel p).map (fun l => x :: l)

/-- node.leaves of anytree: every node of the subtree rooted at the node
(itself included) that has no children. -/
def node_leaves (t : ATree) (fuel : Nat) (s : String) : Option (List String) :=
  (expandAll (chA t) fuel [s]).map (fun l => l.filter (fun x => decide (childrenA t x = [])))

/-- search_tree (tree.py): the searched ids that appear in the filter list,
plus, for every searched id, the leaves of that node (found in the tree by
name — a search id absent from the root's subtree makes find return None
and the attribute access crash, modelled by none) whose rank equals
search_rank; finally list(set(...)). -/
def search_tree (t : ATree) (fuel : Nat) (taxids_search taxids_filter : List String)
    (search_rank : String) : Option (List String) :=
  match omap (fun s =>
      match expandAll (chA t) fuel [t.rootKey] with
      | none => none
      | some subt =>
        if s ∈ subt then
          (node_leaves t fuel s).map (fun ls =>
            ls.filter (fun x => decide (rankOf t x = search_rank)))
        else none) taxids_search with
  | none => none
  | some parts =>
    some ((taxids_search.filter (fun x => decide (x ∈ taxids_filter)) ++ parts.flatten).dedup)

/-- The node dictionary rebuilt by get_anytree_taxon_nodes (tree.py) when
called with the name filter of filter_tree: the nodes of the traversed
subtree whose name is among the collected path names, copied with their
attributes. -/
def keepNodes (t : ATree) (subt parents : List String) : List (String × TaxonNode) :=
  (subt.filter (fun x => decide (x ∈ parents))).filterMap
    (fun k => (alookup t.nodes k).map (fun nd => (k, nd)))

/-- filter_tree (tree.py): collect, for every keep id, the names on the
path of the node found in the tree (find fails — crash — when the id is not
in the root's subtree); then rebuild the node dictionary from the nodes of
the root's subtree whose name is among those path names
(get_anytree_taxon_nodes with that filter), and reparent with the same
root key (a KeyError — crash — when the root was not retained). -/
def filter_tree (t : ATree) (fuel : Nat) (tax_ids : List String) : Option ATree :=
  match omap (fun s =>
      match expandAll (chA t) fuel [t.rootKey] with
      | none => none
      | some subt => if s ∈ subt then climb t fuel s else none) tax_ids with
  | none => none
  | some paths =>
    match expandAll (chA t) fuel [t.rootKey] with
    | none => none
    | some subt =>
      if t.rootKey ∈ keysOf (keepNodes t subt paths.flatten) then
        some ⟨keepNodes t subt paths.flatten, t.rootKey⟩
      else none

end Tree

/-- A small dump: a root whose declared parent "0" is absent (so its
children entry carries no self-loop), a child 2 and a grandchild 3. -/
def exRows : List DumpRow :=
  [⟨"1", "0", "no rank"⟩, ⟨"2", "1", "genus"⟩, ⟨"3", "2", "species"⟩]

/-- The fast tree built from exRows. -/
def exTree : FastTree :=
  TreeFast.build_tree exRows

/-- A dump containing the same tax_id twice with different parent and rank. -/
def exRowsDup : List DumpRow :=
  [⟨"1", "0", "no rank"⟩, ⟨"2", "1", "genus"⟩, ⟨"2", "1", "species"⟩]

/-- The same three-node taxonomy as an anytree dictionary: the root "1" is
its own parent (the sentinel), so it is left unparented by reparenting. -/
def exATree : Tree.ATree :=
  ⟨[("1", ⟨"no_rank", "root", "1"⟩), ("2", ⟨"genus", "two", "1"⟩),
    ("3", ⟨"species", "three", "2"⟩)], "1"⟩

/-- The result of filtering exATree with the keep set {2}: the ancestor
path of 2, nothing else. -/
def exFilteredATree : Tree.ATree :=
  ⟨[("1", ⟨"no_rank", "root", "1"⟩), ("2", ⟨"genus", "two", "1"⟩)], "1"⟩

theorem alookup_nil (k : String) : alookup ([] : List (String × α)) k = none := rfl

theorem alookup_cons (k' : String) (v : α) (r : List (String × α)) (k : String) :
    alookup ((k', v) :: r) k = if k' = k then some v else alookup r k := rfl

theorem alookup_dinsert (m : List (String × α)) (k : String) (v : α) (k' : String) :
    alookup (dinsert m k v) k' = if k = k' then some v else alookup m k' := by
  induction m with
  | nil => by_cases h : k = k' <;> simp [dinsert, alookup, h]
  | cons hd r ih =>
    obtain ⟨hk, hv⟩ := hd
    by_cases h1 : hk = k
    · subst h1
      by_cases h2 : hk = k' <;> simp [dinsert, alookup, h2]
    · by_cases h2 : hk = k'
      · subst h2
        have h3 : ¬k = hk := fun hc => h1 hc.symm
        simp [dinsert, alookup, h1, h3]
      · simp [dinsert, alookup, h1, h2, ih]

theorem omap_eq_some_of_mem {f : α → Option β} {l : List α} {bs : List β}
    (h : omap f l = some bs) (a : α) (ha : a ∈ l) : ∃ b, f a = some b ∧ b ∈ bs := by
  induction l generalizing bs with
  | nil => cases ha
  | cons x r ih =>
    unfold omap at h
    cases hx : f x with
    | none => rw [hx] at h; exact absurd h (by simp)
    | some b0 =>
      rw [hx] at h
      cases hr : omap f r with
      | none => rw [hr] at h; exact absurd h (by simp)
      | some bs0 =>
        rw [hr] at h
        simp only [Option.some.injEq] at h
        subst h
        rcases List.mem_cons.mp ha with rfl | hmem
        · exact ⟨b0, hx, List.mem_cons_self _ _⟩
        · obtain ⟨b, hb1, hb2⟩ := ih hr hmem
          exact ⟨b, hb1, List.mem_cons_of_mem _ hb2⟩

theorem mem_of_omap_eq_some {f : α → Option β} {l : List α} {bs : List β}
    (h : omap f l = some bs) (b : β) (hb : b ∈ bs) : ∃ a ∈ l, f a = some b := by
  induction l generalizing bs with
  | nil =>
    unfold omap at h
    simp only [Option.some.injEq] at h
    subst h
    cases hb
  | cons x r ih =>
    unfold omap at h
    cases hx : f x with
    | none => rw [hx] at h; exact absurd h (by simp)
    | some b0 =>
      rw [hx] at h
      cases hr : omap f r with
      | none => rw [hr] at h; exact absurd h (by simp)
      | some bs0 =>
        rw [hr] at h
        simp only [Option.some.injEq] at h
        subst h
        rcases List.mem_cons.mp hb with rfl | hmem
        · exact ⟨x, List.mem_cons_self _ _, hx⟩
        · obtain ⟨a, ha1, ha2⟩ := ih hr hmem
          exact ⟨a, List.mem_cons_of_mem _ ha1, ha2⟩

theorem mem_optJoin {ls : List (Option (List α))} {r : List α}
    (h : optJoin ls = some r) (x : α) :
    x ∈ r ↔ ∃ o ∈ ls, ∃ l, o = some l ∧ x ∈ l := by
  induction ls generalizing r with
  | nil =>
    simp only [optJoin, Option.some.injEq] at h
    subst h
    simp
  | cons o rest ih =>
    cases o with
    | none => simp [optJoin] at h
    | some l0 =>
      simp only [optJoin] at h
      cases hr : optJoin rest with
      | none => rw [hr] at h; exact absurd h (by simp)
      | some r0 =>
        rw [hr] at h
        simp only [Option.some.injEq] at h
        subst h
        constructor
        · intro hx
          rcases List.mem_append.mp hx with hx | hx
          · exact ⟨some l0, List.mem_cons_self _ _, l0, rfl, hx⟩
          · obtain ⟨o', ho', l', hl', hx'⟩ := (ih hr).mp hx
            exact ⟨o', List.mem_cons_of_mem _ ho', l', hl', hx'⟩
        · rintro ⟨o', ho', l', hl', hx'⟩
          rcases List.mem_cons.mp ho' with rfl | hmem
          · cases hl'
            exact List.mem_append.mpr (Or.inl hx')
          · exact List.mem_append.mpr (Or.inr ((ih hr).mpr ⟨o', hmem, l', hl', hx'⟩))

theorem optJoin_eq_some_of_mem {ls : List (Option (List α))} {r : List α}
    (h : optJoin ls = some r) (o : Option (List α)) (ho : o ∈ ls) :
    ∃ l, o = some l ∧ ∀ x ∈ l, x ∈ r := by
  induction ls generalizing r with
  | nil => cases ho
  | cons o0 rest ih =>
    cases o0 with
    | none => simp [optJoin] at h
    | some l0 =>
      simp only [optJoin] at h
      cases hr : optJoin rest with
      | none => rw [hr] at h; exact absurd h (by simp)
      | some r0 =>
        rw [hr] at h
        simp only [Option.some.injEq] at h
        subst h
        rcases List.mem_cons.mp ho with rfl | hmem
        · exact ⟨l0, rfl, fun x hx => List.mem_append.mpr (Or.inl hx)⟩
        · obtain ⟨l, hl, hsub⟩ := ih hr hmem
          exact ⟨l, hl, fun x hx => List.mem_append.mpr (Or.inr (hsub x hx))⟩

theorem expandAll_sound {ch : String → Option (List String)} {fuel : Nat}
    {ids res : List String} (h : expandAll ch fuel ids = some res) :
    ∀ x ∈ res, ∃ i ∈ ids, Reaches ch i x := by
  induction fuel generalizing ids res with
  | zero => simp [expandAll] at h
  | succ fuel ih =>
    simp only [expandAll] at h
    cases hj : optJoin (ids.map (fun i =>
        match ch i with
        | none => some []
        | some cs => expandAll ch fuel cs)) with
    | none => rw [hj] at h; exact absurd h (by simp)
    | some rs =>
      rw [hj] at h
      simp only [Option.some.injEq] at h
      subst h
      intro x hx
      rcases List.mem_append.mp hx with hx | hx
      · exact ⟨x, hx, Relation.ReflTransGen.refl⟩
      · obtain ⟨o, ho, l, hl, hxl⟩ := (mem_optJoin hj x).mp hx
        obtain ⟨i, hi, hoi⟩ := List.mem_map.mp ho
        refine ⟨i, hi, ?_⟩
        cases hci : ch i with
        | none =>
          rw [hci] at hoi
          rw [← hoi] at hl
          cases hl
          cases hxl
        | some cs =>
          rw [hci] at hoi
          rw [← hoi] at hl
          obtain ⟨y, hy, hr⟩ := ih (hl ▸ rfl : expandAll ch fuel cs = some l) x hxl
          exact Relation.ReflTransGen.head ⟨cs, hci, hy⟩ hr

theorem expandAll_complete {ch : String → Option (List String)} {fuel : Nat}
    {ids res : List String} (h : expandAll ch fuel ids = some res) :
    ∀ i ∈ ids, ∀ x, Reaches ch i x → x ∈ res := by
  induction fuel generalizing ids res with
  | zero => simp [expandAll] at h
  | succ fuel ih =>
    simp only [expandAll] at h
    cases hj : optJoin (ids.map (fun i =>
        match ch i with
        | none => some []
        | some cs => expandAll ch fuel cs)) with
    | none => rw [hj] at h; exact absurd h (by simp)
    | some rs =>
      rw [hj] at h
      simp only [Option.some.injEq] at h
      subst h
      intro i hi x hr
      rcases Relation.ReflTransGen.cases_head hr with rfl | ⟨y, hstep, hr'⟩
      · exact List.mem_append.mpr (Or.inl hi)
      · obtain ⟨cs, hcs, hy⟩ := hstep
        have hmem : (match ch i with
            | none => some ([] : List String)
            | some cs => expandAll ch fuel cs) ∈ ids.map (fun i =>
              match ch i with
              | none => some []
              | some cs => expandAll ch fuel cs) := List.mem_map_of_mem _ hi
        obtain ⟨l, hl, hsub⟩ := optJoin_eq_some_of_mem hj _ hmem
        rw [hcs] at hl
        have hx : x ∈ l := ih hl y hy x hr'
        exact List.mem_append.mpr (Or.inr (hsub x hx))

/-- Membership characterization of the recursive expansion: an id is
collected exactly when it is reachable from one of the starting ids by
following children lists. -/
theorem mem_expandAll {ch : String → Option (List String)} {fuel : Nat}
    {ids res : List String} (h : expandAll ch fuel ids = some res) (x : String) :
    x ∈ res ↔ ∃ i ∈ ids, Reaches ch i x := by
  constructor
  · exact fun hx => expandAll_sound h x hx
  · rintro ⟨i, hi, hr⟩
    exact expandAll_complete h i hi x hr

theorem mem_spec_subtree_of {ch : String → Option (List String)} {fuel : Nat}
    {id : String} {l : List String} (h : spec_subtree_of ch fuel id = some l) (x : String) :
    x ∈ l ↔ Reaches ch id x := by
  rw [mem_expandAll h x]
  constructor
  · rintro ⟨i, hi, hr⟩
    rcases List.mem_singleton.mp hi with rfl
    exact hr
  · intro hr
    exact ⟨id, List.mem_singleton.mpr rfl, hr⟩

theorem mem_join_subtrees {ch : String → Option (List String)} {fuel : Nat}
    {ids : List String} {parts : List (List String)}
    (h : omap (spec_subtree_of ch fuel) ids = some parts) (x : String) :
    x ∈ parts.flatten ↔ ∃ s ∈ ids, Reaches ch s x := by
  constructor
  · intro hx
    obtain ⟨l, hl, hxl⟩ := List.mem_flatten.mp hx
    obtain ⟨s, hs, hsl⟩ := mem_of_omap_eq_some h l hl
    exact ⟨s, hs, (mem_spec_subtree_of hsl x).mp hxl⟩
  · rintro ⟨s, hs, hr⟩
    obtain ⟨l, hl, hml⟩ := omap_eq_some_of_mem h s hs
    exact List.mem_flatten.mpr ⟨l, hml, (mem_spec_subtree_of hl x).mpr hr⟩

theorem omap_map_eq_some {f : β → Option γ} {g : α → β} {h : α → γ}
    (hfg : ∀ a, f (g a) = some (h a)) (l : List α) : omap f (l.map g) = some (l.map h) := by
  induction l with
  | nil => rfl
  | cons a r ih => simp [omap, hfg a, ih]

/-- Claim C6: writing a built fast tree to a snapshot and loading it back
yields a structurally equal tree (same nodes dict, same children dict), and
therefore identical get (find_by_taxid), subtree_of and validate results
for every id.  The byte level of json.dump/json.load is the library's
contract; the snapshot is modelled as the JSON value it carries. -/
theorem C6_snapshot_roundtrip (t : FastTree) (id : String) (fuel : Nat) :
    TreeFast.load_tree (TreeFast.write_tree t) = some t ∧
    (TreeFast.load_tree (TreeFast.write_tree t)).map
        (fun t' => TreeFast.validate_by_taxid t' id) =
      some (TreeFast.validate_by_taxid t id) ∧
    (TreeFast.load_tree (TreeFast.write_tree t)).map (fun t' => alookup t'.nodes id) =
      some (alookup t.nodes id) ∧
    (TreeFast.load_tree (TreeFast.write_tree t)).map
        (fun t' => spec_subtree_of (chFast t') fuel id) =
      some (spec_subtree_of (chFast t) fuel id) := by
  have hnodes : omap TreeFast.decodeNodeEntry
      (t.nodes.map (fun kv =>
        (kv.1, Json.obj [("tax_id", .str kv.2.tax_id),
                         ("parent_tax_id", .str kv.2.parent_tax_id),
                         ("rank", .str kv.2.rank)]))) = some t.nodes := by
    have := omap_map_eq_some (fun kv => (rfl :
      TreeFast.decodeNodeEntry (kv.1, Json.obj [("tax_id", .str kv.2.tax_id),
        ("parent_tax_id", .str kv.2.parent_tax_id),
        ("rank", .str kv.2.rank)]) = some kv)) t.nodes
    simpa using this
  have hchildren : omap TreeFast.decodeChildEntry
      (t.children.map (fun kv => (kv.1, Json.arr (kv.2.map .str)))) =
        some t.children := by
    have hentry : ∀ kv : String × List String,
        TreeFast.decodeChildEntry (kv.1, Json.arr (kv.2.map .str)) = some kv := by
      intro kv
      show (omap TreeFast.decodeStr (kv.2.map .str)).map (fun ss => (kv.1, ss)) = some kv
      have hss : omap TreeFast.decodeStr (kv.2.map .str) = some (kv.2.map (fun s => s)) :=
        omap_map_eq_some
          (fun s => (rfl : TreeFast.decodeStr (Json.str s) = some s)) kv.2
      rw [hss]
      simp
    have := omap_map_eq_some hentry t.children
    simpa using this
  have hload : TreeFast.load_tree (TreeFast.write_tree t) = some t := by
    unfold TreeFast.load_tree TreeFast.write_tree
    simp [hnodes, hchildren]
  exact ⟨hload, by rw [hload]; rfl, by rw [hload]; rfl, by rw [hload]; rfl⟩

theorem alookup_buildNodes_foldl (rows : List DumpRow) (m : List (String × FNode)) (id : String) :
    alookup (rows.foldl (fun m r =>
        dinsert m r.tax_id ⟨r.tax_id, r.parent_tax_id, label_to_id r.rank⟩) m) id =
      match lastWins rows id with
      | some r => some ⟨r.tax_id, r.parent_tax_id, label_to_id r.rank⟩
      | none => alookup m id := by
  induction rows generalizing m with
  | nil => simp [lastWins]
  | cons r rest ih =>
    simp only [List.foldl_cons, lastWins]
    rw [ih]
    cases hl : lastWins rest id with
    | some x => rfl
    | none =>
      rw [alookup_dinsert]
      by_cases hr : r.tax_id = id <;> simp [hr]

/-- Claim C8 counterexample: building a dump that declares tax_id 2 twice,
first with rank genus and then with rank species, raises no error at all —
build_tree is a plain dict fill — and the resulting tree holds exactly one
record for 2, the one of the later line.  This refutes the claim that the
build surfaces a DuplicateId error and that the last write is not silently
accepted. -/
theorem C8_counterexample :
    alookup (TreeFast.build_tree exRowsDup).nodes "2" = some ⟨"2", "1", "species"⟩ ∧
    keysOf (TreeFast.build_tree exRowsDup).nodes = ["1", "2"] :=
  ⟨rfl, rfl⟩

/-- Claim C8, amended: when the build input declares the same id twice
(with whatever parent or rank), build_tree does not fail; it
deterministically keeps the last declaration of each id — the node record
looked up for any id is exactly the one of the last dump row carrying that
id. -/
theorem C8_amended_last_write_wins (rows : List DumpRow) (id : String) :
    alookup (TreeFast.build_tree rows).nodes id =
      (lastWins rows id).map
        (fun r => (⟨r.tax_id, r.parent_tax_id, label_to_id r.rank⟩ : FNode)) := by
  unfold TreeFast.build_tree TreeFast.tree_reparenting TreeFast.buildNodes
  rw [alookup_buildNodes_foldl]
  cases lastWins rows id <;> simp [alookup]

/-- Claim C5 counterexample: a search for the unknown id 99 fails as a
whole with the fixed message of tree_fast.py — the very same outcome as a
search for the different unknown id 77, and the message does not contain
the offending id — so the failure does not name which ids were invalid. -/
theorem C5_counterexample :
    TreeFast.resolver_search exTree 9 ["99"] [] =
        some (.error TreeFast.searchFailMessage) ∧
    TreeFast.resolver_search exTree 9 ["77"] [] =
        TreeFast.resolver_search exTree 9 ["99"] [] ∧
    ¬ ∃ pre post, TreeFast.searchFailMessage = pre ++ "99" ++ post := by
  refine ⟨rfl, rfl, ?_⟩
  rintro ⟨pre, post, hmsg⟩
  have : ('9' : Char) ∈ TreeFast.searchFailMessage.data := by
    rw [hmsg]
    simp [String.data_append]
  simp [TreeFast.searchFailMessage] at this

/-- Claim C5, amended: a search whose input id list fails validation
against the tree (and filter list) fails as a whole — no partial result is
produced — with the fixed generic message, which names no tax id; the
source has no ignoreinvalid option. -/
theorem C5_amended_search_fails_generic (t : FastTree) (fuel : Nat) (S F : List String)
    (h : TreeFast.validate_taxids t S F = false) :
    TreeFast.resolver_search t fuel S F = some (.error TreeFast.searchFailMessage) := by
  unfold TreeFast.resolver_search
  rw [h]
  simp

/-- Witness for C5_amended_search_fails_generic at the concrete tree and
the unknown id 99. -/
theorem C5_amended_witness :
    TreeFast.resolver_search exTree 9 ["99"] [] =
      some (.error TreeFast.searchFailMessage) :=
  C5_amended_search_fails_generic exTree 9 ["99"] [] rfl

theorem validate_taxids_eq_true (t : FastTree) (V F : List String) :
    TreeFast.validate_taxids t V F = true ↔
      ∀ j ∈ V, j ∈ F ∨ TreeFast.validate_by_taxid t j = true := by
  unfold TreeFast.validate_taxids
  by_cases hmem : false ∈ V.map (fun id => decide (id ∈ F) || TreeFast.validate_by_taxid t id)
  · rw [if_pos hmem]
    simp only [Bool.false_eq_true, false_iff]
    obtain ⟨j, hj, hfalse⟩ := List.mem_map.mp hmem
    simp only [Bool.or_eq_false_iff, decide_eq_false_iff_not] at hfalse
    intro hall
    rcases hall j hj with hf | hv
    · exact hfalse.1 hf
    · rw [hv] at hfalse
      exact absurd hfalse.2 (by simp)
  · rw [if_neg hmem]
    simp only [true_iff]
    intro j hj
    by_contra hc
    push_neg at hc
    apply hmem
    refine List.mem_map.mpr ⟨j, hj, ?_⟩
    rw [decide_eq_false hc.1, Bool.eq_false_iff.mpr hc.2]
    rfl

/-- Claim C4: with no filter list supplied, validate returns true exactly
when every supplied id is present in the tree's nodes dict, and for a
single id absent from the tree it returns false — an all-or-nothing
boolean. -/
theorem C4_validate_all_or_nothing (t : FastTree) (S : List String) (id : String)
    (h : TreeFast.validate_by_taxid t id = false) :
    (TreeFast.validate_taxids t S [] = true ↔
      ∀ j ∈ S, TreeFast.validate_by_taxid t j = true) ∧
    TreeFast.validate_taxids t [id] [] = false := by
  constructor
  · rw [validate_taxids_eq_true]
    constructor
    · intro hall j hj
      rcases hall j hj with hf | hv
      · cases hf
      · exact hv
    · intro hall j hj
      exact Or.inr (hall j hj)
  · cases hvt : TreeFast.validate_taxids t [id] [] with
    | false => rfl
    | true =>
      exfalso
      have := (validate_taxids_eq_true t [id] []).mp hvt id (List.mem_singleton.mpr rfl)
      rcases this with hf | hv
      · cases hf
      · rw [h] at hv
        exact absurd hv (by simp)

/-- Witness for C4_validate_all_or_nothing at the concrete tree, a present
id pair and the absent id 99. -/
theorem C4_witness :
    (TreeFast.validate_taxids exTree ["2", "3"] [] = true ↔
      ∀ j ∈ ["2", "3"], TreeFast.validate_by_taxid exTree j = true) ∧
    TreeFast.validate_taxids exTree ["99"] [] = false :=
  C4_validate_all_or_nothing exTree ["2", "3"] "99" rfl

/-- Claim C10: when a filter id list is supplied, validate counts an id as
valid when it is in the filter list or in the nodes dict; consequently, for
every tree, an id absent from the tree still validates when it appears in
the filter list. -/
theorem C10_validate_filter_bypass (t : FastTree) (V F : List String) (x : String)
    (h : TreeFast.validate_by_taxid t x = false) :
    (TreeFast.validate_taxids t V F = true ↔
      ∀ j ∈ V, j ∈ F ∨ TreeFast.validate_by_taxid t j = true) ∧
    TreeFast.validate_taxids t [x] [x] = true := by
  refine ⟨validate_taxids_eq_true t V F, ?_⟩
  rw [validate_taxids_eq_true]
  intro j hj
  rcases List.mem_singleton.mp hj with rfl
  exact Or.inl (List.mem_singleton.mpr rfl)

/-- Witness for C10_validate_filter_bypass: id 99 is absent from the
concrete tree, yet validating it against a filter list holding 99 returns
true. -/
theorem C10_witness :
    (TreeFast.validate_taxids exTree ["2"] ["3"] = true ↔
      ∀ j ∈ ["2"], j ∈ ["3"] ∨ TreeFast.validate_by_taxid exTree j = true) ∧
    TreeFast.validate_taxids exTree ["99"] ["99"] = true :=
  C10_validate_filter_bypass exTree ["2"] ["3"] "99" rfl

/-- Claim C1 counterexample: in the concrete tree 1 -> 2 -> 3, searching
for the id 2 returns only its proper descendant 3, while subtree_of(2) per
the spec is {2, 3}; the searched id itself is missing from the result, so
search(include=S) is not the union of subtree_of(s). -/
theorem C1_counterexample :
    TreeFast.search_taxids exTree 9 ["2"] [] = some ["3"] ∧
    spec_subtree_of (chFast exTree) 9 "2" = some ["2", "3"] ∧
    "2" ∉ ["3"] :=
  ⟨rfl, rfl, by decide⟩

/-- Claim C1, amended: search with an include set and no filter returns
exactly the union over the included ids of their sets of proper transitive
descendants along the children table (one or more child steps); the
included id itself is a member only when it is a proper descendant of some
included id. -/
theorem C1_amended_search_is_proper_descendants (t : FastTree) (fuel : Nat)
    (S res : List String) (x : String)
    (h : TreeFast.search_taxids t fuel S [] = some res) :
    x ∈ res ↔ ∃ s ∈ S, Relation.TransGen (ChStep (chFast t)) s x := by
  unfold TreeFast.search_taxids at h
  cases homap : omap (fun s =>
      match chFast t s with
      | some cs => expandAll (chFast t) fuel cs
      | none => some []) S with
  | none => rw [homap] at h; simp at h
  | some parts =>
    rw [homap] at h
    simp only [List.isEmpty_nil, if_true, Option.some.injEq] at h
    subst h
    rw [List.mem_dedup]
    constructor
    · intro hx
      obtain ⟨l, hl, hxl⟩ := List.mem_flatten.mp hx
      obtain ⟨s, hs, hg⟩ := mem_of_omap_eq_some homap l hl
      cases hcs : chFast t s with
      | none =>
        simp only [hcs, Option.some.injEq] at hg
        subst hg
        cases hxl
      | some cs =>
        simp only [hcs] at hg
        obtain ⟨y, hy, hr⟩ := expandAll_sound hg x hxl
        exact ⟨s, hs, Relation.TransGen.head' ⟨cs, hcs, hy⟩ hr⟩
    · rintro ⟨s, hs, htg⟩
      obtain ⟨y, hstep, hr⟩ := Relation.TransGen.head'_iff.mp htg
      obtain ⟨cs, hcs, hy⟩ := hstep
      obtain ⟨l, hg, hl⟩ := omap_eq_some_of_mem homap s hs
      simp only [hcs] at hg
      have hx : x ∈ l := expandAll_complete hg y hy x hr
      exact List.mem_flatten.mpr ⟨l, hl, hx⟩

/-- Witness for C1_amended_search_is_proper_descendants: searching the
concrete tree for the root's child chain. -/
theorem C1_amended_witness :
    ("3" ∈ ["2", "3"]) ↔ ∃ s ∈ ["1"], Relation.TransGen (ChStep (chFast exTree)) s "3" :=
  C1_amended_search_is_proper_descendants exTree 9 ["1"] ["2", "3"] "3" rfl

/-- Claim C2: the spec's include/exclude/filter pipeline (spec-modelled,
since no search in src/ takes an exclude set) satisfies the claimed set
algebra: the result of search(include=S, exclude=T) is the union of the
subtrees of S minus the union of the subtrees of T, and adding a literal
filter set F makes the result a subset of F. -/
theorem C2_spec_search_algebra (ch : String → Option (List String)) (fuel : Nat)
    (S T F res resF : List String) (x y : String)
    (h1 : spec_search ch fuel S (some T) none = some res)
    (h2 : spec_search ch fuel S (some T) (some F) = some resF) :
    (x ∈ res ↔ (∃ s ∈ S, Reaches ch s x) ∧ ¬ ∃ e ∈ T, Reaches ch e x) ∧
    (y ∈ resF → y ∈ F) := by
  unfold spec_search at h1 h2
  cases hinc : omap (spec_subtree_of ch fuel) S with
  | none => rw [hinc] at h1; simp at h1
  | some incParts =>
    cases hexc : omap (spec_subtree_of ch fuel) T with
    | none => simp only [hinc, hexc] at h1; cases h1
    | some excParts =>
      simp only [hinc, hexc, Option.some.injEq] at h1 h2
      constructor
      · rw [← h1, List.mem_dedup, List.mem_filter]
        rw [mem_join_subtrees hinc x]
        simp only [Bool.not_eq_eq_eq_not, Bool.not_true, decide_eq_false_iff_not]
        rw [mem_join_subtrees hexc x]
      · intro hy
        rw [← h2, List.mem_dedup, List.mem_filter] at hy
        exact of_decide_eq_true hy.2

/-- Witness for C2_spec_search_algebra on the concrete tree with include
{1}, exclude {3} and filter {2}. -/
theorem C2_witness :
    (("2" ∈ ["1", "2"]) ↔ (∃ s ∈ ["1"], Reaches (chFast exTree) s "2") ∧
      ¬ ∃ e ∈ ["3"], Reaches (chFast exTree) e "2") ∧
    (("2" : String) ∈ ["2"] → ("2" : String) ∈ ["2"]) :=
  C2_spec_search_algebra (chFast exTree) 9 ["1"] ["3"] ["2"] ["1", "2"] ["2"] "2" "2" rfl rfl

theorem alookup_isSome_iff_mem_keysOf (m : List (String × α)) (k : String) :
    (alookup m k).isSome = true ↔ k ∈ keysOf m := by
  induction m with
  | nil => simp [alookup, keysOf]
  | cons hd r ih =>
    obtain ⟨k', v⟩ := hd
    by_cases h : k' = k
    · subst h
      simp [alookup, keysOf]
    · have h2 : ¬k = k' := fun hc => h hc.symm
      rw [show alookup ((k', v) :: r) k = alookup r k from by simp [alookup, h]]
      rw [show keysOf ((k', v) :: r) = k' :: keysOf r from rfl]
      rw [List.mem_cons]
      constructor
      · intro hh
        exact Or.inr (ih.mp hh)
      · rintro (heq | hh)
        · exact absurd heq h2
        · exact ih.mpr hh

theorem upstep_isSome {t : Tree.ATree} {a b : String} (h : Tree.UpStep t a b) :
    (alookup t.nodes a).isSome = true := by
  unfold Tree.UpStep Tree.parentLink at h
  cases hnd : alookup t.nodes a with
  | none => rw [hnd] at h; cases h
  | some nd => simp

theorem chA_step_iff (t : Tree.ATree) (a b : String) :
    ChStep (Tree.chA t) a b ↔ Tree.UpStep t b a := by
  unfold ChStep Tree.chA Tree.childrenA
  constructor
  · rintro ⟨cs, hcs, hb⟩
    cases hcs
    rw [List.mem_filter] at hb
    have hb2 : Tree.parentLink t b = some a := of_decide_eq_true hb.2
    exact hb2
  · intro h
    refine ⟨_, rfl, ?_⟩
    rw [List.mem_filter]
    refine ⟨?_, decide_eq_true (show Tree.parentLink t b = some a from h)⟩
    rw [← alookup_isSome_iff_mem_keysOf]
    exact upstep_isSome h

theorem reaches_chA_iff (t : Tree.ATree) (a b : String) :
    Reaches (Tree.chA t) a b ↔ Tree.UpReach t b a := by
  constructor
  · intro h
    induction h with
    | refl => exact Relation.ReflTransGen.refl
    | tail hab hbc ih => exact Relation.ReflTransGen.head ((chA_step_iff t _ _).mp hbc) ih
  · intro h
    induction h with
    | refl => exact Relation.ReflTransGen.refl
    | tail hab hbc ih => exact Relation.ReflTransGen.head ((chA_step_iff t _ _).mpr hbc) ih

theorem climb_sound {t : Tree.ATree} {fuel : Nat} {s : String} {l : List String}
    (h : Tree.climb t fuel s = some l) : ∀ x ∈ l, Tree.UpReach t s x := by
  induction fuel generalizing s l with
  | zero => simp [Tree.climb] at h
  | succ fuel ih =>
    simp only [Tree.climb] at h
    split at h
    next hp =>
      simp only [Option.some.injEq] at h
      subst h
      intro x hx
      rcases List.mem_singleton.mp hx with rfl
      exact Relation.ReflTransGen.refl
    next p hp =>
      cases hc : Tree.climb t fuel p with
      | none => rw [hc] at h; cases h
      | some l' =>
        rw [hc] at h
        simp only [Option.map_some', Option.some.injEq] at h
        subst h
        intro x hx
        rcases List.mem_cons.mp hx with rfl | hx'
        · exact Relation.ReflTransGen.refl
        · exact Relation.ReflTransGen.head hp (ih hc x hx')

theorem climb_complete {t : Tree.ATree} {fuel : Nat} {s : String} {l : List String}
    (h : Tree.climb t fuel s = some l) : ∀ x, Tree.UpReach t s x → x ∈ l := by
  induction fuel generalizing s l with
  | zero => simp [Tree.climb] at h
  | succ fuel ih =>
    simp only [Tree.climb] at h
    split at h
    next hp =>
      simp only [Option.some.injEq] at h
      subst h
      intro x hx
      rcases Relation.ReflTransGen.cases_head hx with rfl | ⟨c, hc, hcx⟩
      · exact List.mem_singleton.mpr rfl
      · unfold Tree.UpStep at hc
        rw [hp] at hc
        cases hc
    next p hp =>
      cases hcl : Tree.climb t fuel p with
      | none => rw [hcl] at h; cases h
      | some l' =>
        rw [hcl] at h
        simp only [Option.map_some', Option.some.injEq] at h
        subst h
        intro x hx
        rcases Relation.ReflTransGen.cases_head hx with rfl | ⟨c, hc, hcx⟩
        · exact List.mem_cons_self _ _
        · unfold Tree.UpStep at hc
          rw [hp] at hc
          simp only [Option.some.injEq] at hc
          subst hc
          exact List.mem_cons_of_mem _ (ih hcl x hcx)

theorem UpReach_to_root {t : Tree.ATree} (hroot : Tree.parentLink t t.rootKey = none)
    {s x : String} (h1 : Tree.UpReach t s x) (h2 : Tree.UpReach t s t.rootKey) :
    Tree.UpReach t x t.rootKey := by
  induction h1 with
  | refl => exact h2
  | tail hab hbc ih =>
    rcases Relation.ReflTransGen.cases_head ih with heq | ⟨d, hd, hdr⟩
    · exfalso
      unfold Tree.UpStep at hbc
      rw [heq, hroot] at hbc
      cases hbc
    · unfold Tree.UpStep at hbc hd
      rw [hbc] at hd
      simp only [Option.some.injEq] at hd
      subst hd
      exact hdr

theorem mem_keysOf_keepNodes (t : Tree.ATree) (subt parents : List String) (z : String) :
    z ∈ keysOf (Tree.keepNodes t subt parents) ↔
      (z ∈ subt ∧ z ∈ parents) ∧ (alookup t.nodes z).isSome = true := by
  unfold Tree.keepNodes keysOf
  rw [List.mem_map]
  constructor
  · rintro ⟨kv, hkv, rfl⟩
    obtain ⟨k, hk, hfk⟩ := List.mem_filterMap.mp hkv
    rw [List.mem_filter] at hk
    cases hnd : alookup t.nodes k with
    | none => rw [hnd] at hfk; cases hfk
    | some nd =>
      rw [hnd] at hfk
      simp only [Option.map_some', Option.some.injEq] at hfk
      subst hfk
      exact ⟨⟨hk.1, of_decide_eq_true hk.2⟩, by simp [hnd]⟩
  · rintro ⟨⟨hz1, hz2⟩, hsome⟩
    cases hnd : alookup t.nodes z with
    | none => rw [hnd] at hsome; cases hsome
    | some nd =>
      refine ⟨(z, nd), List.mem_filterMap.mpr ⟨z, ?_, by simp [hnd]⟩, rfl⟩
      rw [List.mem_filter]
      exact ⟨hz1, decide_eq_true hz2⟩

/-- Claim C9 counterexample: in the anytree variant, searching the concrete
tree for the leaf id 3 (rank species) with the supplied filter set {9}
returns 3 itself — an included ID added through subtree expansion (a node
is among its own leaves when it has no children) even though 3 is not in
the filter set.  This refutes the part of the claim that an included ID
appears in the result only when it is also listed in the supplied filter
set. -/
theorem C9_counterexample :
    Tree.search_tree exATree 9 ["3"] ["9"] "species" = some ["3"] ∧
    "3" ∉ ["9"] :=
  ⟨rfl, by decide⟩

/-- Claim C9, amended: in the anytree variant, an id belongs to a search
result exactly when it is a searched id listed in the filter set, or a leaf
(childless node) of the subtree of some searched id — the searched node
itself included — whose rank equals the configured search rank; thus every
id added through subtree expansion is such a leaf, and a non-leaf or
non-matching-rank descendant appears only via the searched-and-filtered
ids. -/
theorem C9_amended_search_rank_leaves (t : Tree.ATree) (fuel : Nat)
    (S F res : List String) (r x : String)
    (h : Tree.search_tree t fuel S F r = some res) :
    x ∈ res ↔ (x ∈ S ∧ x ∈ F) ∨
      ∃ s ∈ S, Reaches (Tree.chA t) s x ∧ Tree.childrenA t x = [] ∧
        Tree.rankOf t x = r := by
  unfold Tree.search_tree at h
  cases homap : omap (fun s =>
      match expandAll (Tree.chA t) fuel [t.rootKey] with
      | none => none
      | some subt =>
        if s ∈ subt then
          (Tree.node_leaves t fuel s).map (fun ls =>
            ls.filter (fun x => decide (Tree.rankOf t x = r)))
        else none) S with
  | none => rw [homap] at h; cases h
  | some parts =>
    rw [homap] at h
    simp only [Option.some.injEq] at h
    subst h
    rw [List.mem_dedup, List.mem_append]
    constructor
    · rintro (hx | hx)
      · left
        rw [List.mem_filter] at hx
        exact ⟨hx.1, of_decide_eq_true hx.2⟩
      · right
        obtain ⟨l, hl, hxl⟩ := List.mem_flatten.mp hx
        obtain ⟨s, hs, hg⟩ := mem_of_omap_eq_some homap l hl
        refine ⟨s, hs, ?_⟩
        cases hsub : expandAll (Tree.chA t) fuel [t.rootKey] with
        | none => simp only [hsub] at hg; cases hg
        | some subt =>
          simp only [hsub] at hg
          by_cases hin : s ∈ subt
          · rw [if_pos hin] at hg
            unfold Tree.node_leaves at hg
            cases hexp : expandAll (Tree.chA t) fuel [s] with
            | none => rw [hexp] at hg; cases hg
            | some el =>
              rw [hexp] at hg
              simp only [Option.map_some', Option.some.injEq] at hg
              subst hg
              rw [List.mem_filter] at hxl
              obtain ⟨hx1, hx2⟩ := hxl
              rw [List.mem_filter] at hx1
              obtain ⟨hx0, hleafd⟩ := hx1
              refine ⟨?_, of_decide_eq_true hleafd, of_decide_eq_true hx2⟩
              obtain ⟨i, hi, hr⟩ := (mem_expandAll hexp x).mp hx0
              rcases List.mem_singleton.mp hi with rfl
              exact hr
          · rw [if_neg hin] at hg; cases hg
    · rintro (⟨hxS, hxF⟩ | ⟨s, hs, hr, hleaf, hrank⟩)
      · left
        rw [List.mem_filter]
        exact ⟨hxS, decide_eq_true hxF⟩
      · right
        obtain ⟨l, hg, hl⟩ := omap_eq_some_of_mem homap s hs
        cases hsub : expandAll (Tree.chA t) fuel [t.rootKey] with
        | none => simp only [hsub] at hg; cases hg
        | some subt =>
          simp only [hsub] at hg
          by_cases hin : s ∈ subt
          · rw [if_pos hin] at hg
            unfold Tree.node_leaves at hg
            cases hexp : expandAll (Tree.chA t) fuel [s] with
            | none => rw [hexp] at hg; cases hg
            | some el =>
              rw [hexp] at hg
              simp only [Option.map_some', Option.some.injEq] at hg
              subst hg
              refine List.mem_flatten.mpr ⟨_, hl, ?_⟩
              rw [List.mem_filter]
              refine ⟨?_, decide_eq_true hrank⟩
              rw [List.mem_filter]
              refine ⟨?_, decide_eq_true hleaf⟩
              exact expandAll_complete hexp s (List.mem_singleton.mpr rfl) x hr
          · rw [if_neg hin] at hg; cases hg

/-- Witness for C9_amended_search_rank_leaves: the species leaf 3 under the
searched id 2. -/
theorem C9_amended_witness :
    "3" ∈ ["3"] ↔ ("3" ∈ ["2"] ∧ "3" ∈ ([] : List String)) ∨
      ∃ s ∈ ["2"], Reaches (Tree.chA exATree) s "3" ∧ Tree.childrenA exATree "3" = [] ∧
        Tree.rankOf exATree "3" = "species" :=
  C9_amended_search_rank_leaves exATree 9 ["2"] [] ["3"] "species" "3" rfl

/-- Claim C3 counterexample: filtering the concrete anytree taxonomy
1 -> 2 -> 3 with the keep set {2} retains exactly the ancestor path {1, 2};
the descendant 3 of the keep id 2 — reachable from 2 in one child step —
is not part of the filtered node set, refuting the claim that filter keeps
every descendant of each keep id. -/
theorem C3_counterexample :
    (Tree.filter_tree exATree 9 ["2"]).map (fun tr => keysOf tr.nodes) = some ["1", "2"] ∧
    expandAll (Tree.chA exATree) 9 ["2"] = some ["2", "3"] ∧
    "3" ∉ ["1", "2"] :=
  ⟨rfl, rfl, by decide⟩

/-- Claim C3, amended: for a tree whose root is unparented, a successful
filter returns a new tree whose node set is exactly the union of the
ancestor paths of the keep ids (each keep id itself up to and including the
root); descendants of keep ids are not included unless they lie on such a
path.  The result is still a valid rooted tree: the root is retained and
the original parent of every retained node is retained. -/
theorem C3_amended_filter_keeps_ancestor_paths (t : Tree.ATree) (fuel : Nat)
    (S : List String) (tr : Tree.ATree) (x p : String)
    (hroot : Tree.parentLink t t.rootKey = none)
    (h : Tree.filter_tree t fuel S = some tr) :
    (x ∈ keysOf tr.nodes ↔ ∃ s ∈ S, Tree.UpReach t s x) ∧
    t.rootKey ∈ keysOf tr.nodes ∧
    (x ∈ keysOf tr.nodes → Tree.parentLink t x = some p → p ∈ keysOf tr.nodes) := by
  unfold Tree.filter_tree at h
  cases homap : omap (fun s =>
      match expandAll (Tree.chA t) fuel [t.rootKey] with
      | none => none
      | some subt => if s ∈ subt then Tree.climb t fuel s else none) S with
  | none => rw [homap] at h; cases h
  | some paths =>
    rw [homap] at h
    cases hsub : expandAll (Tree.chA t) fuel [t.rootKey] with
    | none => simp only [hsub] at h; cases h
    | some subt =>
      simp only [hsub] at h
      have hS_sub : ∀ s ∈ S, s ∈ subt := by
        intro s hs
        obtain ⟨l, hg, _⟩ := omap_eq_some_of_mem homap s hs
        simp only [hsub] at hg
        by_cases hin : s ∈ subt
        · exact hin
        · rw [if_neg hin] at hg; cases hg
      have hS_root : ∀ s ∈ S, Tree.UpReach t s t.rootKey := by
        intro s hs
        obtain ⟨i, hi, hreach⟩ := (mem_expandAll hsub s).mp (hS_sub s hs)
        rcases List.mem_singleton.mp hi with rfl
        exact (reaches_chA_iff t t.rootKey s).mp hreach
      have hup_root : ∀ s z, s ∈ S → Tree.UpReach t s z → Tree.UpReach t z t.rootKey :=
        fun s z hs hup => UpReach_to_root hroot hup (hS_root s hs)
      have hz_sub : ∀ s z, s ∈ S → Tree.UpReach t s z → z ∈ subt := by
        intro s z hs hup
        refine (mem_expandAll hsub z).mpr
          ⟨t.rootKey, List.mem_singleton.mpr rfl, ?_⟩
        exact (reaches_chA_iff t t.rootKey z).mpr (hup_root s z hs hup)
      have hpaths : ∀ z, z ∈ paths.flatten ↔ ∃ s ∈ S, Tree.UpReach t s z := by
        intro z
        constructor
        · intro hz
          obtain ⟨l, hl, hzl⟩ := List.mem_flatten.mp hz
          obtain ⟨s, hs, hg⟩ := mem_of_omap_eq_some homap l hl
          simp only [hsub] at hg
          by_cases hin : s ∈ subt
          · rw [if_pos hin] at hg
            exact ⟨s, hs, climb_sound hg z hzl⟩
          · rw [if_neg hin] at hg; cases hg
        · rintro ⟨s, hs, hup⟩
          obtain ⟨l, hg, hl⟩ := omap_eq_some_of_mem homap s hs
          simp only [hsub] at hg
          by_cases hin : s ∈ subt
          · rw [if_pos hin] at hg
            exact List.mem_flatten.mpr ⟨l, hl, climb_complete hg z hup⟩
          · rw [if_neg hin] at hg; cases hg
      by_cases hcond : t.rootKey ∈ keysOf (Tree.keepNodes t subt paths.flatten)
      · rw [if_pos hcond] at h
        simp only [Option.some.injEq] at h
        subst h
        have hz_dom : ∀ s z, s ∈ S → Tree.UpReach t s z →
            (alookup t.nodes z).isSome = true := by
          intro s z hs hup
          rcases Relation.ReflTransGen.cases_head (hup_root s z hs hup) with heq | ⟨c, hc, _⟩
          · rw [heq]
            exact ((mem_keysOf_keepNodes t subt paths.flatten t.rootKey).mp hcond).2
          · exact upstep_isSome hc
        have hmain : ∀ z, z ∈ keysOf (Tree.keepNodes t subt paths.flatten) ↔
            ∃ s ∈ S, Tree.UpReach t s z := by
          intro z
          rw [mem_keysOf_keepNodes]
          constructor
          · rintro ⟨⟨_, hz2⟩, _⟩
            exact (hpaths z).mp hz2
          · intro hz
            obtain ⟨s, hs, hup⟩ := hz
            exact ⟨⟨hz_sub s z hs hup, (hpaths z).mpr ⟨s, hs, hup⟩⟩, hz_dom s z hs hup⟩
        refine ⟨hmain x, hcond, ?_⟩
        intro hx hp
        obtain ⟨s, hs, hup⟩ := (hmain x).mp hx
        exact (hmain p).mpr ⟨s, hs, Relation.ReflTransGen.tail hup hp⟩
      · rw [if_neg hcond] at h
        cases h

/-- Witness for C3_amended_filter_keeps_ancestor_paths on the concrete
three-node tree with keep set {2}. -/
theorem C3_amended_witness :
    ("2" ∈ keysOf exFilteredATree.nodes ↔ ∃ s ∈ ["2"], Tree.UpReach exATree s "2") ∧
    exATree.rootKey ∈ keysOf exFilteredATree.nodes ∧
    ("2" ∈ keysOf exFilteredATree.nodes → Tree.parentLink exATree "2" = some "1" →
      "1" ∈ keysOf exFilteredATree.nodes) :=
  C3_amended_filter_keeps_ancestor_paths exATree 9 ["2"] exFilteredATree "2" "1" rfl rfl

theorem alookup_filter_fold (t : FastTree) (l : List String)
    (m : List (String × FNode)) (x : String) :
    alookup (l.foldl (fun m k =>
      match alookup t.nodes k with
      | some nd => dinsert m k nd
      | none => m) m) x =
    if x ∈ l ∧ (alookup t.nodes x).isSome then alookup t.nodes x else alookup m x := by
  induction l generalizing m with
  | nil => simp
  | cons k rest ih =>
    simp only [List.foldl_cons]
    rw [ih]
    by_cases hx : x ∈ rest ∧ (alookup t.nodes x).isSome
    · rw [if_pos hx, if_pos ⟨List.mem_cons_of_mem _ hx.1, hx.2⟩]
    · rw [if_neg hx]
      by_cases hk : k = x
      · subst hk
        cases hnd : alookup t.nodes k with
        | some nd =>
          rw [if_pos ⟨List.mem_cons_self _ _, by simp⟩]
          rw [show (match (some nd : Option FNode) with
              | some nd => dinsert m k nd
              | none => m) = dinsert m k nd from rfl]
          rw [alookup_dinsert]
          simp
        | none =>
          rw [if_neg (fun hc => absurd hc.2 (by simp))]
      · have hcond : ¬(x ∈ k :: rest ∧ (alookup t.nodes x).isSome = true) := by
          rintro ⟨hmem, hsome⟩
          rcases List.mem_cons.mp hmem with heq | hmem'
          · exact hk heq.symm
          · exact hx ⟨hmem', hsome⟩
        rw [if_neg hcond]
        cases hnd : alookup t.nodes k with
        | some nd =>
          rw [show (match (some nd : Option FNode) with
              | some nd => dinsert m k nd
              | none => m) = dinsert m k nd from rfl]
          rw [alookup_dinsert]
          rw [if_neg hk]
        | none => rfl

theorem alookup_filter_tree (t : FastTree) (S : List String) (x : String) :
    alookup (TreeFast.filter_tree t S).nodes x =
      if x ∈ S ∧ (alookup t.nodes x).isSome then alookup t.nodes x else none := by
  unfold TreeFast.filter_tree TreeFast.tree_reparenting
  simp only []
  rw [alookup_filter_fold]
  have hiff : (x ∈ S.filter (fun id => TreeFast.validate_by_taxid t id) ∧
      (alookup t.nodes x).isSome = true) ↔
      (x ∈ S ∧ (alookup t.nodes x).isSome = true) := by
    rw [List.mem_filter]
    unfold TreeFast.validate_by_taxid
    constructor
    · rintro ⟨⟨h1, _⟩, h3⟩
      exact ⟨h1, h3⟩
    · rintro ⟨h1, h2⟩
      exact ⟨⟨h1, h2⟩, h2⟩
  rw [if_congr hiff rfl rfl]
  simp [alookup]

/-- Claim C7: re-filtering the fast tree with the same keep set is a no-op;
the node dictionary of filter(filter(t, S), S) answers every lookup exactly
as the one of filter(t, S), so in particular the two node sets coincide. -/
theorem C7_filter_idempotent (t : FastTree) (S : List String) (x : String) :
    alookup (TreeFast.filter_tree (TreeFast.filter_tree t S) S).nodes x =
      alookup (TreeFast.filter_tree t S).nodes x := by
  rw [alookup_filter_tree, alookup_filter_tree]
  by_cases h1 : x ∈ S ∧ (alookup t.nodes x).isSome = true
  · simp only [if_pos h1]
  · simp only [if_neg h1]
    simp

end TaxRes
